import Mathlib

/-!
Shallow embedding of the genetic-algorithm engine in `src/lib.rs`
(crate `Genetic_Alg`).  Machine integers (`u64`) are modelled as `ℕ`
with an explicit `% 2^64` wherever the Rust operation can wrap, and
`f64`/`f32` arithmetic is modelled exactly over `ℚ` (IEEE rounding is
idealised away; the special values produced by division by zero are
modelled by the type `Fl` below).  Every Rust operation that panics in
a debug build (integer overflow, shift by at least the bit width,
out-of-bounds indexing) and every loop that can fail to terminate is
modelled by an `Option` result (`none` = panic or hang); randomness is
modelled by explicit streams of draws, and the rejection-sampling loop
in `pairs` additionally takes a fuel bound.
-/

namespace GA

/-- Structure `Chromosome` of `lib.rs`: `data : u64`, `fitness : f64`,
`N : usize`. -/
structure Chromosome where
  data : ℕ
  fitness : ℚ
  N : ℕ
deriving DecidableEq

instance : Inhabited Chromosome := ⟨⟨0, 0, 0⟩⟩

/-- Model of `rng.gen_range(lo..hi)`: a uniform draw in `[lo, hi)`
driven by a seed `s`.  Callers guard the `hi = lo` panic case
themselves. -/
def gen_range (lo hi s : ℕ) : ℕ := lo + s % (hi - lo)

/-- Function `Chromosome::new`: `data = rng.gen_range(0..1023)` (note
that the bound is the constant `1023`, independent of the bit width
`L`), fitness `0.0`. -/
def Chromosome.new (N s : ℕ) : Chromosome :=
  { data := gen_range 0 1023 s, fitness := 0, N := N }

/-- Function `Chromosome::calculate_fitness`: `checked_sub` models the
`u64` subtraction `data_sum - data`; the `f64` formula
`((20000 - data) - 0.52 * diff) * data` is modelled exactly in ℚ. -/
def Chromosome.calculate_fitness (c : Chromosome) (data_sum : ℕ) : ℚ :=
  if c.data ≤ data_sum then
    let diff := data_sum - c.data
    let fitness := ((20000 - (c.data : ℚ)) - 0.52 * (diff : ℚ)) * (c.data : ℚ)
    if fitness < 0 then 0 else fitness
  else 0

/-- Values an `f64` can take at the points where the engine divides by
zero: `NaN`, plus or minus infinity, or a finite value (kept in ℚ). -/
inductive Fl where
  | nan : Fl
  | inf : Fl
  | ninf : Fl
  | fin : ℚ → Fl
deriving DecidableEq

/-- IEEE-754 addition on `Fl` (finite/finite idealised to exact
rational addition). -/
def flAdd : Fl → Fl → Fl
  | .nan, _ => .nan
  | _, .nan => .nan
  | .inf, .ninf => .nan
  | .ninf, .inf => .nan
  | .inf, _ => .inf
  | _, .inf => .inf
  | .ninf, _ => .ninf
  | _, .ninf => .ninf
  | .fin a, .fin b => .fin (a + b)

/-- IEEE-754 comparison `x >= u` for `x : Fl` and finite `u`
(`NaN >= u` is false). -/
def flGe : Fl → ℚ → Bool
  | .nan, _ => false
  | .inf, _ => true
  | .ninf, _ => false
  | .fin a, u => decide (u ≤ a)

/-- IEEE-754 division of two finite `f64` values: `0/0 = NaN`,
nonzero/0 is a signed infinity, otherwise exact. -/
def flDiv (a b : ℚ) : Fl :=
  if b = 0 then
    if a = 0 then .nan else if 0 < a then .inf else .ninf
  else .fin (a / b)

/-- Function `Run::assign_probability`:
`ind.fitness / self.total_fitness`. -/
def assign_probability (total_fitness : ℚ) (ind : Chromosome) : Fl :=
  flDiv ind.fitness total_fitness

/-- Loop of `Run::select`: walk the population and the probability
vector in lock-step (the Rust code walks indices `0..n`, with both
vectors of length `n`), accumulating `cumulative_sum`, and return the
first individual whose cumulative share reaches the draw `rand_f`. -/
def selectLoop : List Chromosome → List Fl → ℚ → Fl → Option Chromosome
  | c :: pop, p :: probs, rand_f, acc =>
    let acc' := flAdd acc p
    if flGe acc' rand_f then some c else selectLoop pop probs rand_f acc'
  | _, _, _, _ => none

/-- Function `Run::select`: run the loop from a zero accumulator and
fall back to `population[n - 1]` (`getLast?`, whose `none` case models
the index panic on an empty population). -/
def select (pop : List Chromosome) (probs : List Fl) (rand_f : ℚ) : Option Chromosome :=
  match selectLoop pop probs rand_f (.fin 0) with
  | some c => some c
  | none => pop.getLast?

/-- Structure `Run` of `lib.rs`; the `f32` probabilities are modelled
in ℚ. -/
structure Run where
  Pcross : ℚ
  Pmut : ℚ
  L : ℕ
  n : ℕ
  z : ℕ
  period : ℕ
  population : List Chromosome
  total_fitness : ℚ
  data_sum : ℕ

/-- Function `Run::new`: `n` fresh random chromosomes seeded by the
stream `ss`; no parameter validation of any kind. -/
def Run.new (Pcross Pmut : ℚ) (L n z : ℕ) (ss : ℕ → ℕ) : Run :=
  { Pcross := Pcross, Pmut := Pmut, L := L, n := n, z := z, period := 0,
    population := (List.range n).map (fun i => Chromosome.new n (ss i)),
    total_fitness := 0, data_sum := 0 }

/-- Function `Run::calculate_data_sum`: the `u64` sum of all `data`
values (`none` models the debug-build overflow panic). -/
def calculate_data_sum (pop : List Chromosome) : Option ℕ :=
  let s := (pop.map Chromosome.data).sum
  if s < 2^64 then some s else none

/-- Loop body of `Run::calculate_iteration_fitness`: recompute each
fitness from `data_sum` and update `total_fitness` incrementally by
`new - old`. -/
def calculate_iteration_fitness : List Chromosome → ℕ → ℚ → List Chromosome × ℚ
  | [], _, total => ([], total)
  | c :: rest, data_sum, total =>
    let f := c.calculate_fitness data_sum
    let p := calculate_iteration_fitness rest data_sum (total + (f - c.fitness))
    ({ c with fitness := f } :: p.1, p.2)

/-- Function `Run::iter_stats`: the per-generation statistics record.
The `u64` sum is checked against wrap-around (debug overflow panic =
`none`); mean and variance are idealised in ℚ (for `n = 0` Rust would
produce `NaN` where ℚ division by zero yields `0`; no claim depends on
the statistics values). -/
def iter_stats (pop : List Chromosome) (n : ℕ) : Option (ℕ × ℚ) :=
  let sum := (pop.map Chromosome.data).sum
  if sum < 2^64 then
    let mean : ℚ := (sum : ℚ) / (n : ℚ)
    let variance := ((pop.map (fun c => ((c.data : ℚ) - mean)^2)).sum) / (n : ℚ)
    some (sum, variance)
  else none

/-- Selection loop `(0..n).map(|_| self.select(..))` of `Run::recomb`:
`count` selections, each consuming one draw from the stream `us`. -/
def recombGo (pop : List Chromosome) (probs : List Fl) (us : ℕ → ℚ) :
    ℕ → ℕ → Option (List Chromosome)
  | 0, _ => some []
  | count + 1, upos =>
    match select pop probs (us upos) with
    | none => none
    | some c =>
      match recombGo pop probs us count (upos + 1) with
      | none => none
      | some rest => some (c :: rest)

/-- Function `Run::recomb`: fitness-proportionate selection of the next
gene pool, replacing the population. -/
def recomb (pop : List Chromosome) (total_fitness : ℚ) (n : ℕ) (us : ℕ → ℚ) :
    Option (List Chromosome) :=
  recombGo pop (pop.map (assign_probability total_fitness)) us n 0

/-- Rejection-sampling `while` loop of `Run::pairs`: draw partner
indices until one is unpaired and different from `i`.  `fuel` bounds
the number of draws (`none` = the Rust loop has not terminated within
`fuel` draws); `none` is also returned for `n = 0`, where
`gen_range(0..0)` panics. -/
def findPartner (paired : List Bool) (i n : ℕ) (ps : ℕ → ℕ) :
    ℕ → ℕ → Option (ℕ × ℕ)
  | 0, _ => none
  | fuel + 1, pos =>
    if n = 0 then none
    else
      let partner_idx := ps pos % n
      if paired.getD partner_idx true ∨ partner_idx = i then
        findPartner paired i n ps fuel (pos + 1)
      else some (partner_idx, pos + 1)

/-- Outer `for i in 0..n` loop of `Run::pairs`: `r` iterations remain,
`i` is the current index, `paired` tracks paired indices, `acc` holds
the pairs pushed so far and `pos` is the position in the partner draw
stream. -/
def pairsGo (pop : List Chromosome) (n : ℕ) (ps : ℕ → ℕ) (fuel : ℕ) :
    ℕ → ℕ → List Bool → List (Chromosome × Chromosome) → ℕ →
    Option (List (Chromosome × Chromosome) × List Bool × ℕ)
  | 0, _, paired, acc, pos => some (acc, paired, pos)
  | r + 1, i, paired, acc, pos =>
    if paired.getD i true then pairsGo pop n ps fuel r (i + 1) paired acc pos
    else
      match findPartner paired i n ps fuel pos with
      | none => none
      | some (partner_idx, pos') =>
        pairsGo pop n ps fuel r (i + 1)
          ((paired.set i true).set partner_idx true)
          (acc ++ [(pop.getD i default, pop.getD partner_idx default)]) pos'

/-- Function `Run::pairs` on the population drained from the engine. -/
def pairs (pop : List Chromosome) (n : ℕ) (ps : ℕ → ℕ) (fuel : ℕ) :
    Option (List (Chromosome × Chromosome)) :=
  match pairsGo pop n ps fuel n 0 (List.replicate n false) [] 0 with
  | none => none
  | some (acc, _, _) => some acc

/-- Bit-clearing loop `for i in 0..z { data &= !(1 << i) }` of
`Run::cross` on a `u64` (`!x` is `x XOR (2^64 - 1)` there). -/
def clearLowBits (z d : ℕ) : ℕ :=
  (List.range z).foldl (fun a i => a &&& ((2^64 - 1) ^^^ 2^i)) d

/-- Bit manipulation of one crossover in `Run::cross`:
`temp = (data << (L - z)) >> (L - z)` on `u64`, then clear the low `z`
bits of each offspring and OR in the partner's `temp`.  `none` models
the debug-build panics: `L - z` underflows for `z > L`, a shift by
`L - z ≥ 64` overflows, and `1 << i` with `i ≥ 64` overflows inside the
bit-clearing loop (reachable only for `z > 64`).  Note the masking:
`temp` keeps the low `64 - (L - z)` bits of the parent, not its low
`z` bits. -/
def crossBits (L z d1 d2 : ℕ) : Option (ℕ × ℕ) :=
  if z ≤ L ∧ L - z < 64 ∧ z ≤ 64 then
    let s := L - z
    let temp1 := d1 * 2^s % 2^64 / 2^s
    let temp2 := d2 * 2^s % 2^64 / 2^s
    some (clearLowBits z d1 ||| temp2, clearLowBits z d2 ||| temp1)
  else none

/-- Per-pair loop of `Run::cross`: each pair consumes one `f32` draw;
when the draw is below `Pcross` the bits are crossed, otherwise the two
clones pass through; both offspring are pushed in order. -/
def crossPairs (Pcross : ℚ) (L z : ℕ) (cs : ℕ → ℚ) :
    List (Chromosome × Chromosome) → ℕ → Option (List Chromosome)
  | [], _ => some []
  | (c1, c2) :: rest, pos =>
    if cs pos < Pcross then
      match crossBits L z c1.data c2.data with
      | none => none
      | some (d1, d2) =>
        match crossPairs Pcross L z cs rest (pos + 1) with
        | none => none
        | some tail => some ({ c1 with data := d1 } :: { c2 with data := d2 } :: tail)
    else
      match crossPairs Pcross L z cs rest (pos + 1) with
      | none => none
      | some tail => some (c1 :: c2 :: tail)

/-- Function `Run::cross`: pair the drained population, then cross each
pair and rebuild the population from the offspring. -/
def cross (Pcross : ℚ) (L z n : ℕ) (pop : List Chromosome)
    (ps : ℕ → ℕ) (fuel : ℕ) (cs : ℕ → ℚ) : Option (List Chromosome) :=
  match pairs pop n ps fuel with
  | none => none
  | some prs => crossPairs Pcross L z cs prs 0

/-- Function `Run::mutate`: per individual, one `f32` trial draw
(stream `mcs`, position `cpos`) and, on success, one bit-index draw
`gen_range(0..L)` (stream `mss`, position `bpos`) flipping bit
`mss bpos % L` of `data`.  `none` models the panics: `gen_range(0..0)`
for `L = 0`, and `1 << b` with `b ≥ 64` (reachable only for `L > 64`). -/
def mutate (Pmut : ℚ) (L : ℕ) :
    List Chromosome → (ℕ → ℚ) → (ℕ → ℕ) → ℕ → ℕ → Option (List Chromosome)
  | [], _, _, _, _ => some []
  | c :: rest, mcs, mss, cpos, bpos =>
    if mcs cpos < Pmut then
      if L = 0 then none
      else
        let b := mss bpos % L
        if 64 ≤ b then none
        else
          match mutate Pmut L rest mcs mss (cpos + 1) (bpos + 1) with
          | none => none
          | some tail => some ({ c with data := c.data ^^^ 2^b } :: tail)
    else
      match mutate Pmut L rest mcs mss (cpos + 1) bpos with
      | none => none
      | some tail => some (c :: tail)

/-- One generation of the loop body of `Run::run`: data-sum, fitness
update, statistics, selection, crossover, mutation.  Each random phase
draws from its own stream. -/
def stepGen (r : Run) (us : ℕ → ℚ) (ps : ℕ → ℕ) (fuel : ℕ)
    (cs : ℕ → ℚ) (mcs : ℕ → ℚ) (mss : ℕ → ℕ) : Option (Run × (ℕ × ℚ)) :=
  match calculate_data_sum r.population with
  | none => none
  | some data_sum =>
    let fit := calculate_iteration_fitness r.population data_sum r.total_fitness
    match iter_stats fit.1 r.n with
    | none => none
    | some stat =>
      match recomb fit.1 fit.2 r.n us with
      | none => none
      | some pop2 =>
        match cross r.Pcross r.L r.z r.n pop2 ps fuel cs with
        | none => none
        | some pop3 =>
          match mutate r.Pmut r.L pop3 mcs mss 0 0 with
          | none => none
          | some pop4 =>
            some ({ r with population := pop4, total_fitness := fit.2,
                           data_sum := data_sum }, stat)

/-- Iteration loop `for _ in 0..iterations` of `Run::run`; `g` indexes
the generation so that each generation uses a fresh stream section. -/
def runGo (us : ℕ → ℕ → ℚ) (ps : ℕ → ℕ → ℕ) (fuel : ℕ)
    (cs : ℕ → ℕ → ℚ) (mcs : ℕ → ℕ → ℚ) (mss : ℕ → ℕ → ℕ) :
    ℕ → ℕ → Run → List (ℕ × ℚ) → Option (List Chromosome × List (ℕ × ℚ))
  | 0, _, r, stats => some (r.population, stats)
  | k + 1, g, r, stats =>
    match stepGen r (us g) (ps g) fuel (cs g) (mcs g) (mss g) with
    | none => none
    | some (r', stat) => runGo us ps fuel cs mcs mss k (g + 1) r' (stats ++ [stat])

/-- Function `Run::run`: run `iterations` generations and return the
final population together with the statistics sequence. -/
def runGA (r : Run) (iterations : ℕ) (us : ℕ → ℕ → ℚ) (ps : ℕ → ℕ → ℕ)
    (fuel : ℕ) (cs : ℕ → ℕ → ℚ) (mcs : ℕ → ℕ → ℚ) (mss : ℕ → ℕ → ℕ) :
    Option (List Chromosome × List (ℕ × ℚ)) :=
  runGo us ps fuel cs mcs mss iterations 0 r []

/-- Crossover as the specification words it (sections 4.2 and 8):
offspring1 is parent1's high `L - z` bits with parent2's low `z` bits
OR-ed in, and symmetrically for offspring2.  This definition follows
the specification, for comparison against `crossBits`. -/
def crossoverSpec (z d1 d2 : ℕ) : ℕ × ℕ :=
  (d1 / 2^z * 2^z ||| d2 % 2^z, d2 / 2^z * 2^z ||| d1 % 2^z)

/-! ### Helper lemmas about the bit-clearing loop -/

theorem clearLowBits_succ (z d : ℕ) :
    clearLowBits (z + 1) d = clearLowBits z d &&& ((2^64 - 1) ^^^ 2^z) := by
  unfold clearLowBits
  rw [List.range_succ, List.foldl_append]
  rfl

theorem testBit_clearLowBits (z d j : ℕ) (hd : d < 2^64) :
    (clearLowBits z d).testBit j =
      (d.testBit j && !decide (j < z) && decide (j < 64)) := by
  induction z with
  | zero =>
    by_cases h : j < 64
    · simp [clearLowBits, h]
    · have : d.testBit j = false :=
        Nat.testBit_eq_false_of_lt
          (lt_of_lt_of_le hd (Nat.pow_le_pow_right (by norm_num) (le_of_not_lt h)))
      simp [clearLowBits, h, this]
  | succ z ih =>
    rw [clearLowBits_succ, Nat.testBit_land, ih,
        Nat.testBit_xor, Nat.testBit_two_pow_sub_one, Nat.testBit_two_pow]
    by_cases h64 : j < 64
    · by_cases hz : j < z
      · have : j < z + 1 := by omega
        simp [hz, h64, this]
      · by_cases hjz : j = z
        · have : j < z + 1 := by omega
          simp [hjz, h64, this]
        · have hnz : ¬ j < z + 1 := by omega
          simp [hz, h64, hnz, Ne.symm hjz]
    · simp [h64]

theorem clearLowBits_eq_zero (L d : ℕ) (hL : L ≤ 64) (hd : d < 2^L) :
    clearLowBits L d = 0 := by
  have hd64 : d < 2^64 := lt_of_lt_of_le hd (Nat.pow_le_pow_right (by norm_num) hL)
  apply Nat.zero_of_testBit_eq_false
  intro j
  rw [testBit_clearLowBits L d j hd64]
  by_cases h : j < L
  · simp [h]
  · have : d.testBit j = false :=
      Nat.testBit_eq_false_of_lt
        (lt_of_lt_of_le hd (Nat.pow_le_pow_right (by norm_num) (le_of_not_lt h)))
    simp [this]

theorem crossBits_z_eq_L (L d1 d2 : ℕ) (hL : L ≤ 64) (h1 : d1 < 2^L) (h2 : d2 < 2^L) :
    crossBits L L d1 d2 = some (d2, d1) := by
  have h164 : d1 < 2^64 := lt_of_lt_of_le h1 (Nat.pow_le_pow_right (by norm_num) hL)
  have h264 : d2 < 2^64 := lt_of_lt_of_le h2 (Nat.pow_le_pow_right (by norm_num) hL)
  unfold crossBits
  rw [if_pos ⟨le_rfl, by omega, hL⟩]
  simp only [Nat.sub_self, pow_zero, mul_one, Nat.div_one,
    Nat.mod_eq_of_lt h164, Nat.mod_eq_of_lt h264,
    clearLowBits_eq_zero L d1 hL h1, clearLowBits_eq_zero L d2 hL h2,
    Nat.zero_or]

/-! ### Claims C1, C4, C5, C2, C9 -/

/-- Claim C1 (code_bug evidence).  The claim says each offspring keeps
its own high `L - z` bits and receives only the partner's low `z` bits,
and that `z = 0` is a no-op.  The code's mask `(x << (L-z)) >> (L-z)`
is taken on a 64-bit integer, so it keeps the partner's low
`64 - (L - z)` bits instead of its low `z` bits.  At `L = 10, z = 2`
(the parameters of the shipped binary) parents `(0, 4)` yield
offspring `(4, 4)` where the specified crossover yields `(0, 4)`; at
`z = 0` parents `(1, 2)` yield `(3, 3)` instead of passing through
unchanged. -/
theorem cross_masks_wrong_bits :
    crossBits 10 2 0 4 = some (4, 4) ∧ crossoverSpec 2 0 4 = (0, 4) ∧
    crossBits 10 0 1 2 = some (3, 3) ∧ crossoverSpec 0 1 2 = (1, 2) := by
  refine ⟨?_, by decide, ?_, by decide⟩ <;> decide

/-- Claim C4.  `compute_fitness(aggregate)` on a chromosome with value
`v` returns `0` when `aggregate < v`, and otherwise
`((K - v) - c * (aggregate - v)) * v` with `K = 20000`, `c = 0.52`,
floored at `0`; the result is never negative.  (`f64` arithmetic is
idealised as exact rational arithmetic.) -/
theorem calculate_fitness_formula (v a : ℕ) (f : ℚ) (N : ℕ) :
    Chromosome.calculate_fitness ⟨v, f, N⟩ a =
      (if a < v then 0
       else max 0 (((20000 - (v : ℚ)) - 0.52 * ((a : ℚ) - (v : ℚ))) * (v : ℚ))) ∧
    0 ≤ Chromosome.calculate_fitness ⟨v, f, N⟩ a := by
  have hmain : Chromosome.calculate_fitness ⟨v, f, N⟩ a =
      (if a < v then 0
       else max 0 (((20000 - (v : ℚ)) - 0.52 * ((a : ℚ) - (v : ℚ))) * (v : ℚ))) := by
    simp only [Chromosome.calculate_fitness]
    by_cases h : a < v
    · rw [if_neg (by omega : ¬ v ≤ a), if_pos h]
    · have hva : v ≤ a := le_of_not_lt h
      have hcast : ((a - v : ℕ) : ℚ) = (a : ℚ) - (v : ℚ) := by
        push_cast [Nat.cast_sub hva]; ring
      rw [if_pos hva, if_neg h]
      simp only [hcast]
      rcases le_or_lt 0 (((20000 - (v : ℚ)) - 0.52 * ((a : ℚ) - (v : ℚ))) * (v : ℚ)) with h0 | h0
      · rw [if_neg (not_lt.mpr h0), max_eq_right h0]
      · rw [if_pos h0, max_eq_left (le_of_lt h0)]
  refine ⟨hmain, ?_⟩
  rw [hmain]
  by_cases h : a < v
  · simp [h]
  · simp [h, le_max_left]

/-- Claim C5.  With `p_cross = 1.0` (every `f32` draw lies in `[0,1)`,
hence below `1`) and `z = L ≤ 64`, crossover on a pair of chromosomes
whose values fit in `L` bits exactly swaps the two values. -/
theorem crossover_swaps_at_z_eq_L (L : ℕ) (hL : L ≤ 64) (c1 c2 : Chromosome)
    (h1 : c1.data < 2^L) (h2 : c2.data < 2^L)
    (cs : ℕ → ℚ) (hcs : ∀ j, cs j < 1) (pos : ℕ) :
    crossPairs 1 L L cs [(c1, c2)] pos =
      some [{ c1 with data := c2.data }, { c2 with data := c1.data }] := by
  simp only [crossPairs, if_pos (hcs pos),
    crossBits_z_eq_L L c1.data c2.data hL h1 h2]

/-- Witness for C5 at concrete inputs: `L = z = 4`, parents `3` and
`5` are swapped. -/
theorem crossover_swaps_at_z_eq_L_witness :
    crossPairs 1 4 4 (fun _ => 0) [(⟨3, 0, 0⟩, ⟨5, 0, 0⟩)] 0 =
      some [⟨5, 0, 0⟩, ⟨3, 0, 0⟩] :=
  crossover_swaps_at_z_eq_L 4 (by norm_num) ⟨3, 0, 0⟩ ⟨5, 0, 0⟩
    (by norm_num) (by norm_num) (fun _ => 0) (fun _ => by norm_num) 0

/-- Claim C2, amended (counterexample `new_value_can_exceed_width`
shows the claim as stated is false for `L < 10`): a fresh engine has
exactly `n` chromosomes, each with `value < 1023`; in particular
`value < 2^L` whenever `L ≥ 10`. -/
theorem new_population_size_and_bounds (Pcross Pmut : ℚ) (L n z : ℕ) (ss : ℕ → ℕ) :
    (Run.new Pcross Pmut L n z ss).population.length = n ∧
    ∀ c ∈ (Run.new Pcross Pmut L n z ss).population,
      c.data < 1023 ∧ (10 ≤ L → c.data < 2^L) := by
  constructor
  · simp [Run.new]
  · intro c hc
    simp only [Run.new, List.mem_map] at hc
    obtain ⟨i, -, rfl⟩ := hc
    have hlt : (Chromosome.new n (ss i)).data < 1023 := by
      simp only [Chromosome.new, gen_range]
      omega
    refine ⟨hlt, fun hL => ?_⟩
    have h10 : (1023 : ℕ) < 2^10 := by norm_num
    exact lt_of_lt_of_le (lt_trans hlt h10) (Nat.pow_le_pow_right (by norm_num) hL)

/-- Witness for the amended C2 at concrete inputs. -/
theorem new_population_size_and_bounds_witness :
    (Run.new 0 0 12 2 3 (fun j => 5000 * j)).population.length = 2 ∧
    ∀ c ∈ (Run.new 0 0 12 2 3 (fun j => 5000 * j)).population, c.data < 2^12 := by
  refine ⟨(new_population_size_and_bounds 0 0 12 2 3 (fun j => 5000 * j)).1,
    fun c hc => ((new_population_size_and_bounds 0 0 12 2 3
      (fun j => 5000 * j)).2 c hc).2 (by norm_num)⟩

/-- Counterexample to C2 as stated: with `L = 5` (a valid width) the
initialisation draw `100` (inside the sampler's range `[0, 1023)`)
produces a chromosome whose value `100` is not below `2^5 = 32`. -/
theorem new_value_can_exceed_width :
    ∃ c ∈ (Run.new 0 0 5 1 5 (fun _ => 100)).population, ¬ c.data < 2^5 := by
  refine ⟨Chromosome.new 1 100, ?_, by decide⟩
  simp [Run.new]

/-- Claim C9, amended (counterexample
`new_accepts_misconfigured_parameters` shows the claim as stated is
false): `Run::new` performs no parameter validation at all — for every
parameter tuple, including `z > L` and `n = 0`, it returns an engine
(with exactly `n` chromosomes and the given parameters stored
verbatim) instead of failing fast. -/
theorem new_never_fails (Pcross Pmut : ℚ) (L n z : ℕ) (ss : ℕ → ℕ) :
    (Run.new Pcross Pmut L n z ss).population.length = n ∧
    (Run.new Pcross Pmut L n z ss).L = L ∧
    (Run.new Pcross Pmut L n z ss).z = z ∧
    (Run.new Pcross Pmut L n z ss).n = n := by
  refine ⟨?_, rfl, rfl, rfl⟩
  simp [Run.new]

/-- Counterexample to C9 as stated: construction with `z = 7 > L = 3`
and `n = 0` succeeds and returns an engine (with an empty population
and the misconfigured parameters stored), rather than failing fast
with an error condition. -/
theorem new_accepts_misconfigured_parameters :
    (Run.new 0 0 3 0 7 (fun _ => 0)).population = [] ∧
    (Run.new 0 0 3 0 7 (fun _ => 0)).z = 7 ∧
    (Run.new 0 0 3 0 7 (fun _ => 0)).L = 3 :=
  ⟨rfl, rfl, rfl⟩

/-! ### Claims C3, C6, C10: pairing termination and selection safety -/

theorem findPartner_single (ps : ℕ → ℕ) :
    ∀ fuel pos, findPartner [false] 0 1 ps fuel pos = none := by
  intro fuel
  induction fuel with
  | zero => intro pos; rfl
  | succ f ih =>
    intro pos
    simp only [findPartner, Nat.mod_one, if_neg (one_ne_zero)]
    rw [if_pos (Or.inr trivial)]
    exact ih (pos + 1)

/-- Claim C3 (code_bug evidence).  For population size `n = 1` the
rejection-sampling loop of `Run::pairs` can never terminate: the only
index it can draw equals the current index, so for every draw stream
and every fuel bound the pairing (and hence the crossover phase) never
completes.  The same happens at the last unpaired index for every odd
`n`, so no individual is ever "left unpaired and carried over". -/
theorem pairs_never_terminates_for_n_one (pop : List Chromosome) (ps : ℕ → ℕ)
    (fuel : ℕ) : pairs pop 1 ps fuel = none := by
  simp only [pairs, List.replicate, pairsGo]
  rw [if_neg (by norm_num : ¬ ([false] : List Bool).getD 0 true = true)]
  rw [findPartner_single ps fuel 0]

theorem flAdd_nan_right (a : Fl) : flAdd a .nan = .nan := by cases a <;> rfl

theorem selectLoop_mem :
    ∀ (pop : List Chromosome) (probs : List Fl) (u : ℚ) (acc : Fl) (c : Chromosome),
      selectLoop pop probs u acc = some c → c ∈ pop := by
  intro pop
  induction pop with
  | nil => intro probs u acc c h; cases probs <;> simp [selectLoop] at h
  | cons hd tl ih =>
    intro probs u acc c h
    cases probs with
    | nil => simp [selectLoop] at h
    | cons p ps =>
      simp only [selectLoop] at h
      split at h
      · injection h with h'
        exact h' ▸ List.mem_cons_self hd tl
      · exact List.mem_cons_of_mem hd (ih ps u _ c h)

/-- Claim C6.  For a probability vector of length `n` summing to `1`
and a draw `u ∈ [0,1]`, `select` returns a member of the population,
and whenever the cumulative-sum walk never reaches `u` it returns the
last member as the fallback. -/
theorem select_returns_population_member (pop : List Chromosome) (qs : List ℚ) (u : ℚ)
    (hne : pop ≠ []) (hlen : qs.length = pop.length) (hsum : qs.sum = 1)
    (hu0 : 0 ≤ u) (hu1 : u ≤ 1) :
    (∃ c, select pop (qs.map Fl.fin) u = some c ∧ c ∈ pop) ∧
    (selectLoop pop (qs.map Fl.fin) u (Fl.fin 0) = none →
      select pop (qs.map Fl.fin) u = some (pop.getLast hne)) := by
  constructor
  · simp only [select]
    cases hsel : selectLoop pop (qs.map Fl.fin) u (Fl.fin 0) with
    | some c => exact ⟨c, rfl, selectLoop_mem _ _ _ _ _ hsel⟩
    | none => exact ⟨pop.getLast hne, List.getLast?_eq_getLast pop hne, List.getLast_mem hne⟩
  · intro hnone
    simp only [select, hnone]
    exact List.getLast?_eq_getLast pop hne

/-- Witness for C6 at concrete inputs: one individual with probability
vector `[1]` and draw `1/2`. -/
theorem select_returns_population_member_witness :
    (∃ c, select [⟨4, 0, 1⟩] ([1].map Fl.fin) (1/2) = some c ∧ c ∈ [⟨4, 0, 1⟩]) ∧
    (selectLoop [⟨4, 0, 1⟩] ([1].map Fl.fin) (1/2) (Fl.fin 0) = none →
      select [⟨4, 0, 1⟩] ([1].map Fl.fin) (1/2) =
        some (List.getLast [⟨4, 0, 1⟩] (by simp))) :=
  select_returns_population_member [⟨4, 0, 1⟩] [1] (1/2) (by simp) rfl
    (by norm_num) (by norm_num) (by norm_num)

theorem selectLoop_all_nan :
    ∀ (pop : List Chromosome) (probs : List Fl) (u : ℚ) (acc : Fl),
      (∀ p ∈ probs, p = Fl.nan) → selectLoop pop probs u acc = none := by
  intro pop
  induction pop with
  | nil => intro probs u acc hall; cases probs <;> rfl
  | cons hd tl ih =>
    intro probs u acc hall
    cases probs with
    | nil => rfl
    | cons p ps =>
      have hp : p = Fl.nan := hall p (List.mem_cons_self _ _)
      subst hp
      simp only [selectLoop, flAdd_nan_right, flGe, Bool.false_eq_true, if_false]
      exact ih ps u _ (fun q hq => hall q (List.mem_cons_of_mem _ hq))

/-- Claim C10.  When `total_fitness = 0` (all fitness values are `0`,
since they are nonnegative and sum to the total), every share computed
by `assign_probability` is `0.0 / 0.0 = NaN`; `NaN >= u` is false for
every draw, so the cumulative walk never fires and `select`
deterministically returns the last population member. -/
theorem select_zero_total_fitness_returns_last (pop : List Chromosome) (u : ℚ)
    (hne : pop ≠ [])
    (hsum : (pop.map Chromosome.fitness).sum = 0)
    (hnn : ∀ c ∈ pop, 0 ≤ c.fitness)
    (hu0 : 0 ≤ u) (hu1 : u < 1) :
    select pop (pop.map (assign_probability 0)) u = some (pop.getLast hne) := by
  have hzero : ∀ c ∈ pop, c.fitness = 0 := by
    intro c hc
    refine List.all_zero_of_le_zero_le_of_sum_eq_zero ?_ hsum
      (List.mem_map_of_mem Chromosome.fitness hc)
    intro x hx
    obtain ⟨c', hc', rfl⟩ := List.mem_map.mp hx
    exact hnn c' hc'
  have hnan : ∀ p ∈ pop.map (assign_probability 0), p = Fl.nan := by
    intro p hp
    obtain ⟨c, hc, rfl⟩ := List.mem_map.mp hp
    simp [assign_probability, flDiv, hzero c hc]
  simp only [select, selectLoop_all_nan _ _ _ _ hnan]
  exact List.getLast?_eq_getLast pop hne

/-- Witness for C10 at concrete inputs: one individual with zero
fitness and total fitness `0`. -/
theorem select_zero_total_fitness_returns_last_witness :
    select [⟨5, 0, 1⟩] ([⟨5, 0, 1⟩].map (assign_probability 0)) 0 = some ⟨5, 0, 1⟩ := by
  rw [select_zero_total_fitness_returns_last [⟨5, 0, 1⟩] 0 (by simp) (by simp)
    (by simp) (le_refl 0) (by norm_num)]
  rfl

/-! ### Claim C8: mutation flips exactly one low bit -/

theorem testBit_xor_two_pow (d b j : ℕ) :
    Nat.testBit (d ^^^ 2^b) j = if j = b then !Nat.testBit d j else Nat.testBit d j := by
  rw [Nat.testBit_xor]
  by_cases h : j = b
  · subst h
    simp [Nat.testBit_two_pow_self]
  · simp [Nat.testBit_two_pow_of_ne (Ne.symm h), h]

theorem xor_two_pow_ne (d b : ℕ) : d ^^^ 2^b ≠ d := by
  intro h
  have hb := congrArg (fun x => Nat.testBit x b) h
  simp only [testBit_xor_two_pow, if_pos rfl] at hb
  exact (Bool.not_ne_self _) hb

/-- Claim C8.  With `p_mut = 1.0` every individual is mutated every
generation (every `f32` draw lies in `[0,1)`, hence below `1`), and
each mutated value differs from its pre-mutation value in exactly one
bit position, which lies among the low-order `L` bits. -/
theorem mutate_flips_exactly_one_bit (L : ℕ) (hL1 : 1 ≤ L) (hL64 : L ≤ 64)
    (mcs : ℕ → ℚ) (mss : ℕ → ℕ) (hdraw : ∀ j, mcs j < 1) :
    ∀ (pop : List Chromosome) (cpos bpos : ℕ),
      ∃ pop', mutate 1 L pop mcs mss cpos bpos = some pop' ∧
        pop'.length = pop.length ∧
        ∀ i < pop.length, ∃ b < L,
          (pop'.getD i default).data = (pop.getD i default).data ^^^ 2^b ∧
          Nat.testBit (pop'.getD i default).data b
            = !Nat.testBit (pop.getD i default).data b ∧
          (∀ j, j ≠ b → Nat.testBit (pop'.getD i default).data j
            = Nat.testBit (pop.getD i default).data j) ∧
          (pop'.getD i default).data ≠ (pop.getD i default).data := by
  intro pop
  induction pop with
  | nil =>
    intro cpos bpos
    exact ⟨[], rfl, rfl, fun i hi => absurd hi (by simp)⟩
  | cons hd tl ih =>
    intro cpos bpos
    obtain ⟨tail', htail, hlen, hbits⟩ := ih (cpos + 1) (bpos + 1)
    have hbL : mss bpos % L < L := Nat.mod_lt _ (by omega)
    have hb64 : ¬ 64 ≤ mss bpos % L := by omega
    refine ⟨{ hd with data := hd.data ^^^ 2^(mss bpos % L) } :: tail', ?_, ?_, ?_⟩
    · simp only [mutate, if_pos (hdraw cpos), if_neg (by omega : ¬ L = 0),
        if_neg hb64, htail]
    · simp [hlen]
    · intro i hi
      cases i with
      | zero =>
        refine ⟨mss bpos % L, hbL, rfl, ?_, ?_, xor_two_pow_ne hd.data _⟩
        · simp only [List.getD_cons_zero]
          rw [testBit_xor_two_pow, if_pos rfl]
        · intro j hj
          simp only [List.getD_cons_zero]
          rw [testBit_xor_two_pow, if_neg hj]
      | succ i' =>
        exact hbits i' (by simpa using hi)

/-- Witness for C8 at concrete inputs: `L = 1`, a single individual of
value `0` and all draws `0`; its only bit is flipped. -/
theorem mutate_flips_exactly_one_bit_witness :
    ∃ pop', mutate 1 1 [⟨0, 0, 0⟩] (fun _ => 0) (fun _ => 0) 0 0 = some pop' ∧
      pop'.length = ([⟨0, 0, 0⟩] : List Chromosome).length ∧
      ∀ i < ([⟨0, 0, 0⟩] : List Chromosome).length, ∃ b < 1,
        (pop'.getD i default).data
          = ((([⟨0, 0, 0⟩] : List Chromosome).getD i default)).data ^^^ 2^b ∧
        Nat.testBit (pop'.getD i default).data b
          = !Nat.testBit ((([⟨0, 0, 0⟩] : List Chromosome).getD i default)).data b ∧
        (∀ j, j ≠ b → Nat.testBit (pop'.getD i default).data j
          = Nat.testBit ((([⟨0, 0, 0⟩] : List Chromosome).getD i default)).data j) ∧
        (pop'.getD i default).data
          ≠ ((([⟨0, 0, 0⟩] : List Chromosome).getD i default)).data :=
  mutate_flips_exactly_one_bit 1 le_rfl (by norm_num) (fun _ => 0) (fun _ => 0)
    (fun j => by norm_num) [⟨0, 0, 0⟩] 0 0

/-! ### Claim C7: every phase preserves the population size -/

theorem getD_set_self (l : List Bool) : ∀ (j : ℕ) (b d : Bool), j < l.length →
    (l.set j b).getD j d = b := by
  induction l with
  | nil => intro j b d h; simp at h
  | cons hd tl ih =>
    intro j b d h
    cases j with
    | zero => rfl
    | succ j' => exact ih j' b d (by simpa using h)

theorem getD_set_ne (l : List Bool) : ∀ (j j' : ℕ) (b d : Bool), j ≠ j' →
    (l.set j b).getD j' d = l.getD j' d := by
  induction l with
  | nil => intro j j' b d h; rfl
  | cons hd tl ih =>
    intro j j' b d h
    cases j with
    | zero =>
      cases j' with
      | zero => exact absurd rfl h
      | succ k => rfl
    | succ jj =>
      cases j' with
      | zero => rfl
      | succ k => exact ih jj k b d (by omega)

theorem getD_set_true_preserve (l : List Bool) : ∀ (j j' : ℕ),
    l.getD j true = true → (l.set j' true).getD j true = true := by
  induction l with
  | nil => intro j j' h; exact h
  | cons hd tl ih =>
    intro j j' h
    cases j' with
    | zero =>
      cases j with
      | zero => rfl
      | succ k => exact h
    | succ jj =>
      cases j with
      | zero => exact h
      | succ k => exact ih k jj h

theorem count_set_true (l : List Bool) : ∀ (j : ℕ), j < l.length →
    l.getD j true = false → (l.set j true).count true = l.count true + 1 := by
  induction l with
  | nil => intro j h; simp at h
  | cons hd tl ih =>
    intro j hj hf
    cases j with
    | zero =>
      have hhd : hd = false := hf
      subst hhd
      simp [List.count_cons]
    | succ k =>
      have hrec := ih k (by simpa using hj) hf
      simp only [List.set_cons_succ, List.count_cons, hrec]
      omega

theorem count_true_of_all_getD (l : List Bool)
    (h : ∀ j < l.length, l.getD j true = true) : l.count true = l.length := by
  induction l with
  | nil => rfl
  | cons hd tl ih =>
    have h0 : hd = true := h 0 (by simp)
    subst h0
    have hrec := ih (fun j hj => h (j + 1) (by simpa using hj))
    simp [List.count_cons, hrec]

theorem findPartner_spec (paired : List Bool) (i n : ℕ) (ps : ℕ → ℕ) :
    ∀ (fuel pos p pos' : ℕ), findPartner paired i n ps fuel pos = some (p, pos') →
      p < n ∧ p ≠ i ∧ paired.getD p true = false := by
  intro fuel
  induction fuel with
  | zero => intro pos p pos' h; exact absurd h (by simp [findPartner])
  | succ f ih =>
    intro pos p pos' h
    simp only [findPartner] at h
    by_cases hn : n = 0
    · rw [if_pos hn] at h; exact absurd h (by simp)
    · rw [if_neg hn] at h
      split at h
      · exact ih (pos + 1) p pos' h
      · rename_i hcond
        injection h with h1
        injection h1 with hp hpos
        push_neg at hcond
        obtain ⟨hgetD, hne⟩ := hcond
        subst hp
        exact ⟨Nat.mod_lt _ (Nat.pos_of_ne_zero hn), hne, by simpa using hgetD⟩

theorem pairsGo_invariant (pop : List Chromosome) (n : ℕ) (ps : ℕ → ℕ) (fuel : ℕ) :
    ∀ (r : ℕ) (i : ℕ) (paired : List Bool) (acc : List (Chromosome × Chromosome))
      (pos : ℕ) (acc' : List (Chromosome × Chromosome)) (paired' : List Bool)
      (pos' : ℕ),
      pairsGo pop n ps fuel r i paired acc pos = some (acc', paired', pos') →
      paired.length = n → i + r = n →
      paired'.length = n ∧
      (∀ j, paired.getD j true = true → paired'.getD j true = true) ∧
      (∀ j, i ≤ j → j < n → paired'.getD j true = true) ∧
      2 * acc'.length + paired.count true = 2 * acc.length + paired'.count true := by
  intro r
  induction r with
  | zero =>
    intro i paired acc pos acc' paired' pos' h hlen hin
    simp only [pairsGo, Option.some.injEq, Prod.mk.injEq] at h
    obtain ⟨rfl, rfl, rfl⟩ := h
    exact ⟨hlen, fun j hj => hj, fun j hij hjn => absurd hjn (by omega), by omega⟩
  | succ rr ihr =>
    intro i paired acc pos acc' paired' pos' h hlen hin
    simp only [pairsGo] at h
    by_cases hskip : paired.getD i true = true
    · rw [if_pos hskip] at h
      obtain ⟨hl, hpres, hmark, hcnt⟩ :=
        ihr (i + 1) paired acc pos acc' paired' pos' h hlen (by omega)
      refine ⟨hl, hpres, ?_, hcnt⟩
      intro j hij hjn
      rcases eq_or_lt_of_le hij with heq | hlt
      · have hmk := hpres i hskip
        rwa [heq] at hmk
      · exact hmark j (by omega) hjn
    · rw [if_neg hskip] at h
      cases hfp : findPartner paired i n ps fuel pos with
      | none => rw [hfp] at h; exact absurd h (by simp)
      | some pp =>
        obtain ⟨p, pos1⟩ := pp
        rw [hfp] at h
        obtain ⟨hpn, hpi, hpf⟩ := findPartner_spec paired i n ps fuel pos p pos1 hfp
        have hi_len : i < paired.length := by omega
        have hp_len : p < paired.length := by omega
        have hne_b : paired.getD i true = false := by
          cases hb : paired.getD i true
          · rfl
          · exact absurd hb hskip
        have hlen2 : ((paired.set i true).set p true).length = n := by
          simp [hlen]
        have hcount2 : ((paired.set i true).set p true).count true
            = paired.count true + 2 := by
          have c1 : (paired.set i true).count true = paired.count true + 1 :=
            count_set_true paired i hi_len hne_b
          have hgetp : (paired.set i true).getD p true = false := by
            rw [getD_set_ne paired i p true true (Ne.symm hpi)]
            exact hpf
          have c2 : ((paired.set i true).set p true).count true
              = (paired.set i true).count true + 1 :=
            count_set_true (paired.set i true) p (by simpa using hp_len) hgetp
          omega
        obtain ⟨hl, hpres, hmark, hcnt⟩ :=
          ihr (i + 1) ((paired.set i true).set p true)
            (acc ++ [(pop.getD i default, pop.getD p default)]) pos1
            acc' paired' pos' h hlen2 (by omega)
        refine ⟨hl, ?_, ?_, ?_⟩
        · intro j hj
          exact hpres j (getD_set_true_preserve _ j p (getD_set_true_preserve _ j i hj))
        · intro j hij hjn
          rcases eq_or_lt_of_le hij with heq | hlt
          · have hmk := hpres i (getD_set_true_preserve _ i p
              (getD_set_self paired i true true hi_len))
            rwa [heq] at hmk
          · exact hmark j (by omega) hjn
        · have hacclen : (acc ++ [(pop.getD i default, pop.getD p default)]).length
              = acc.length + 1 := by simp
          omega

theorem pairs_pair_count (pop : List Chromosome) (n : ℕ) (ps : ℕ → ℕ) (fuel : ℕ)
    (prs : List (Chromosome × Chromosome)) (h : pairs pop n ps fuel = some prs) :
    2 * prs.length = n := by
  simp only [pairs] at h
  cases hgo : pairsGo pop n ps fuel n 0 (List.replicate n false) [] 0 with
  | none => rw [hgo] at h; exact absurd h (by simp)
  | some t =>
    obtain ⟨acc, paired', pos'⟩ := t
    rw [hgo] at h
    injection h with h'
    subst h'
    obtain ⟨hl, hpres, hmark, hcnt⟩ := pairsGo_invariant pop n ps fuel n 0
      (List.replicate n false) [] 0 acc paired' pos' hgo (by simp) (by omega)
    have hall : paired'.count true = n := by
      have hx := count_true_of_all_getD paired'
        (fun j hj => hmark j (by omega) (by omega))
      omega
    have hrep : (List.replicate n false).count true = 0 := by
      simp [List.count_replicate]
    simp only [List.length_nil] at hcnt
    omega

theorem calculate_iteration_fitness_length (pop : List Chromosome) :
    ∀ (ds : ℕ) (t : ℚ), (calculate_iteration_fitness pop ds t).1.length = pop.length := by
  induction pop with
  | nil => intro ds t; rfl
  | cons hd tl ih =>
    intro ds t
    simp [calculate_iteration_fitness, ih]

theorem recombGo_length (pop : List Chromosome) (probs : List Fl) (us : ℕ → ℚ) :
    ∀ (count upos : ℕ) (l : List Chromosome),
      recombGo pop probs us count upos = some l → l.length = count := by
  intro count
  induction count with
  | zero =>
    intro upos l h
    injection h with h'
    subst h'
    rfl
  | succ c ih =>
    intro upos l h
    simp only [recombGo] at h
    cases hsel : select pop probs (us upos) with
    | none => rw [hsel] at h; exact absurd h (by simp)
    | some cc =>
      rw [hsel] at h
      cases hrec : recombGo pop probs us c (upos + 1) with
      | none => rw [hrec] at h; exact absurd h (by simp)
      | some rest =>
        rw [hrec] at h
        injection h with h'
        subst h'
        simp [ih (upos + 1) rest hrec]

theorem crossPairs_length (Pcross : ℚ) (L z : ℕ) (cs : ℕ → ℚ) :
    ∀ (prs : List (Chromosome × Chromosome)) (pos : ℕ) (l : List Chromosome),
      crossPairs Pcross L z cs prs pos = some l → l.length = 2 * prs.length := by
  intro prs
  induction prs with
  | nil =>
    intro pos l h
    injection h with h'
    subst h'
    rfl
  | cons pr rest ih =>
    obtain ⟨c1, c2⟩ := pr
    intro pos l h
    simp only [crossPairs] at h
    split at h
    · cases hcb : crossBits L z c1.data c2.data with
      | none => rw [hcb] at h; exact absurd h (by simp)
      | some dd =>
        obtain ⟨d1, d2⟩ := dd
        rw [hcb] at h
        cases hcp : crossPairs Pcross L z cs rest (pos + 1) with
        | none => rw [hcp] at h; exact absurd h (by simp)
        | some tail =>
          rw [hcp] at h
          injection h with h'
          subst h'
          have hrec := ih (pos + 1) tail hcp
          simp only [List.length_cons, hrec]
          omega
    · cases hcp : crossPairs Pcross L z cs rest (pos + 1) with
      | none => rw [hcp] at h; exact absurd h (by simp)
      | some tail =>
        rw [hcp] at h
        injection h with h'
        subst h'
        have hrec := ih (pos + 1) tail hcp
        simp only [List.length_cons, hrec]
        omega

theorem mutate_length (Pmut : ℚ) (L : ℕ) (mcs : ℕ → ℚ) (mss : ℕ → ℕ) :
    ∀ (pop : List Chromosome) (cpos bpos : ℕ) (l : List Chromosome),
      mutate Pmut L pop mcs mss cpos bpos = some l → l.length = pop.length := by
  intro pop
  induction pop with
  | nil =>
    intro cpos bpos l h
    injection h with h'
    subst h'
    rfl
  | cons hd tl ih =>
    intro cpos bpos l h
    simp only [mutate] at h
    split at h
    · split at h
      · exact absurd h (by simp)
      · split at h
        · exact absurd h (by simp)
        · cases hm : mutate Pmut L tl mcs mss (cpos + 1) (bpos + 1) with
          | none => rw [hm] at h; exact absurd h (by simp)
          | some tail =>
            rw [hm] at h
            injection h with h'
            subst h'
            simp [ih (cpos + 1) (bpos + 1) tail hm]
    · cases hm : mutate Pmut L tl mcs mss (cpos + 1) bpos with
      | none => rw [hm] at h; exact absurd h (by simp)
      | some tail =>
        rw [hm] at h
        injection h with h'
        subst h'
        simp [ih (cpos + 1) bpos tail hm]

theorem cross_length (Pcross : ℚ) (L z n : ℕ) (pop : List Chromosome)
    (ps : ℕ → ℕ) (fuel : ℕ) (cs : ℕ → ℚ) (l : List Chromosome)
    (h : cross Pcross L z n pop ps fuel cs = some l) : l.length = n := by
  simp only [cross] at h
  cases hp : pairs pop n ps fuel with
  | none => rw [hp] at h; exact absurd h (by simp)
  | some prs =>
    rw [hp] at h
    have h2 := crossPairs_length Pcross L z cs prs 0 l h
    have h3 := pairs_pair_count pop n ps fuel prs hp
    omega

theorem stepGen_preserves (r : Run) (us : ℕ → ℚ) (ps : ℕ → ℕ) (fuel : ℕ)
    (cs : ℕ → ℚ) (mcs : ℕ → ℚ) (mss : ℕ → ℕ) (r' : Run) (stat : ℕ × ℚ)
    (h : stepGen r us ps fuel cs mcs mss = some (r', stat)) :
    r'.population.length = r.n ∧ r'.n = r.n := by
  simp only [stepGen] at h
  split at h
  · exact absurd h (by simp)
  rename_i ds h1
  split at h
  · exact absurd h (by simp)
  rename_i st h2
  split at h
  · exact absurd h (by simp)
  rename_i pop2 h3
  split at h
  · exact absurd h (by simp)
  rename_i pop3 h4
  split at h
  · exact absurd h (by simp)
  rename_i pop4 h5
  injection h with h'
  injection h' with ha hb
  constructor
  · rw [← ha]
    exact (mutate_length r.Pmut r.L mcs mss pop3 0 0 pop4 h5).trans
      (cross_length r.Pcross r.L r.z r.n pop2 ps fuel cs pop3 h4)
  · rw [← ha]

theorem runGo_length (us : ℕ → ℕ → ℚ) (ps : ℕ → ℕ → ℕ) (fuel : ℕ)
    (cs : ℕ → ℕ → ℚ) (mcs : ℕ → ℕ → ℚ) (mss : ℕ → ℕ → ℕ) :
    ∀ (k g : ℕ) (r : Run) (stats : List (ℕ × ℚ)) (pop : List Chromosome)
      (stats' : List (ℕ × ℚ)),
      runGo us ps fuel cs mcs mss k g r stats = some (pop, stats') →
      r.population.length = r.n → pop.length = r.n := by
  intro k
  induction k with
  | zero =>
    intro g r stats pop stats' h hlen
    injection h with h'
    injection h' with ha hb
    rw [← ha]
    exact hlen
  | succ kk ih =>
    intro g r stats pop stats' h hlen
    simp only [runGo] at h
    cases hs : stepGen r (us g) (ps g) fuel (cs g) (mcs g) (mss g) with
    | none => rw [hs] at h; exact absurd h (by simp)
    | some t =>
      obtain ⟨r', stat⟩ := t
      rw [hs] at h
      obtain ⟨hplen, hn⟩ := stepGen_preserves r (us g) (ps g) fuel (cs g) (mcs g)
        (mss g) r' stat hs
      have hres := ih (g + 1) r' (stats ++ [stat]) pop stats' h (by rw [hplen, hn])
      rw [hres, hn]

/-- Claim C7.  Whenever `run(k)` completes (each random phase succeeds
within the model's bounds), the returned population has exactly `n`
individuals: selection draws `n` members, pairing produces `n / 2`
pairs whose offspring rebuild `n`, and mutation maps elementwise. -/
theorem run_returns_n_individuals (Pcross Pmut : ℚ) (L n z k : ℕ)
    (hk : 1 ≤ k) (hn : 2 ∣ n) (ss : ℕ → ℕ)
    (us : ℕ → ℕ → ℚ) (ps : ℕ → ℕ → ℕ) (fuel : ℕ)
    (cs : ℕ → ℕ → ℚ) (mcs : ℕ → ℕ → ℚ) (mss : ℕ → ℕ → ℕ)
    (pop : List Chromosome) (stats : List (ℕ × ℚ))
    (h : runGA (Run.new Pcross Pmut L n z ss) k us ps fuel cs mcs mss
      = some (pop, stats)) :
    pop.length = n := by
  have hinit : (Run.new Pcross Pmut L n z ss).population.length
      = (Run.new Pcross Pmut L n z ss).n := by
    simp [Run.new]
  exact runGo_length us ps fuel cs mcs mss k 0 _ [] pop stats h hinit

/-- Witness for C7: a two-individual, one-generation run that
completes, evaluated concretely. -/
theorem run_returns_n_individuals_witness :
    ∃ pop stats,
      runGA (Run.new 0 0 10 2 2 (fun _ => 0)) 1 (fun _ _ => 0) (fun _ _ => 1) 1
        (fun _ _ => 0) (fun _ _ => 0) (fun _ _ => 0) = some (pop, stats) ∧
      pop.length = 2 := by
  have h : runGA (Run.new 0 0 10 2 2 (fun _ => 0)) 1 (fun _ _ => 0) (fun _ _ => 1) 1
      (fun _ _ => 0) (fun _ _ => 0) (fun _ _ => 0)
      = some ([⟨0, 0, 2⟩, ⟨0, 0, 2⟩], [(0, 0)]) := by
    norm_num [runGA, runGo, stepGen, Run.new, Chromosome.new, gen_range,
      calculate_data_sum, calculate_iteration_fitness, Chromosome.calculate_fitness,
      iter_stats, recomb, recombGo, select, selectLoop, assign_probability, flDiv,
      flAdd, flGe, cross, pairs, pairsGo, findPartner, crossPairs, crossBits,
      clearLowBits, mutate, List.replicate]
    rfl
  exact ⟨_, _, h, run_returns_n_individuals 0 0 10 2 2 1 le_rfl ⟨1, rfl⟩
    (fun _ => 0) (fun _ _ => 0) (fun _ _ => 1) 1 (fun _ _ => 0) (fun _ _ => 0)
    (fun _ _ => 0) _ _ h⟩

end GA
